import Mathlib

/-!
Verification of the Amass subdomain-discovery sources against their
specification.  The Go code of `amass/utils/network.go` and of the
`sources` package (provider registry, `cleanName`, web-archive `crawl`)
is translated into executable Lean definitions; the numbered claims about
the specification are then settled as theorems about those definitions.

Machine addresses are modelled as natural numbers with an explicit bit
width: a `net.IP` of byte length `n` is the value of its bytes in base
256, strictly below `2 ^ (8 * n)`, and the byte-slice increment and
decrement helpers of the source are addition and subtraction modulo
`2 ^ (8 * n)`.
-/

namespace AmassSpec

/-! ## Name normalization (`cleanName`, sources package)

Character-level primitives shared by the source translation and by the
specification's four-step reference algorithm. -/

/-- Whitespace predicate of Go `strings.TrimSpace` (the ASCII space class
together with NEL and NBSP, the code points Unicode marks as spaces in
Latin-1; higher space code points do not occur in scraped names). -/
def goIsSpace (c : Char) : Bool :=
  c.val == 32 || (9 ≤ c.val && c.val ≤ 13) || c.val == 133 || c.val == 160

/-- Per-character lower-casing of Go `strings.ToLower`, restricted to the
ASCII range (the only case mapping relevant to hostnames; both the source
translation and the reference algorithm use the same mapping). -/
def goToLower (c : Char) : Char :=
  if 65 ≤ c.val && c.val ≤ 90 then Char.ofNat (c.toNat + 32) else c

/-- Go `strings.TrimSpace` on the character list. -/
def trimSpace (l : List Char) : List Char :=
  ((l.dropWhile goIsSpace).reverse.dropWhile goIsSpace).reverse

/-- Go `strings.Trim(name, "-")`: remove every leading and trailing dash. -/
def trimDash (l : List Char) : List Char :=
  ((l.dropWhile (fun c => c == '-')).reverse.dropWhile (fun c => c == '-')).reverse

/-- One two-character alternative of the regular expression
`nameStripRE = ^((20)|(25)|(2b)|(2f)|(3d)|(3a)|(40))+` from the sources
package. -/
def isTok (a b : Char) : Bool :=
  (a == '2' && (b == '0' || b == '5' || b == 'b' || b == 'f')) ||
  (a == '3' && (b == 'd' || b == 'a')) ||
  (a == '4' && b == '0')

/-- Number of tokens in the maximal leading token run.  All alternatives
of the regex have length two, so its greedy anchored `+` matches exactly
`2 * tokRun l` characters. -/
def tokRun : List Char → Nat
  | a :: b :: rest => if isTok a b then tokRun rest + 1 else 0
  | _ => 0

/-- Model of `nameStripRE.FindStringIndex`: the regex is anchored at the
start, so it matches exactly when a token run begins the string, and the
end index of the (greedy) match is twice the run length in tokens. -/
def findStripIndex (l : List Char) : Option Nat :=
  if tokRun l == 0 then none else some (2 * tokRun l)

/-- The strip loop of `cleanName`: cut the string at the end index of the
regex match and retry until the regex no longer matches.  The Go loop is
an unbounded `for`; every successful match removes at least two
characters, so `l.length` rounds of fuel cover every run of the loop. -/
def stripLoopF : Nat → List Char → List Char
  | 0, l => l
  | f + 1, l =>
    match findStripIndex l with
    | some n => stripLoopF f (l.drop n)
    | none => l

/-- The strip loop of `cleanName` at its natural fuel. -/
def stripLoop (l : List Char) : List Char := stripLoopF l.length l

/-- Final step of `cleanName`: Go slicing `name[1:]` guarded by
`len(name) > 1 && name[0] == '.'`. -/
def dropDot (l : List Char) : List Char :=
  if 1 < l.length && (l.head? == some '.') then l.tail else l

/-- `cleanName` from the sources package: `strings.ToLower`, then
`strings.TrimSpace`, the regex strip loop, `strings.Trim(name, "-")`, and
the guarded removal of one leading dot. -/
def cleanName (s : String) : String :=
  String.mk (dropDot (trimDash (stripLoop (trimSpace (s.data.map goToLower)))))

/-- Step 2 of the specification's four-step reference algorithm, written
as the specification words it: strip leading two-character tokens as long
as one begins the string, i.e. repeatedly strip every leading run of
tokens until no such run remains at the start. -/
def specStrip : List Char → List Char
  | a :: b :: rest => if isTok a b then specStrip rest else a :: b :: rest
  | l => l

/-- The specification's four-step reference algorithm for `cleanName`:
trim-and-lowercase, repeated leading token-run stripping, dash trimming,
and the length-guarded removal of a single leading dot. -/
def cleanNameSpec (s : String) : String :=
  String.mk (dropDot (trimDash (specStrip (trimSpace (s.data.map goToLower)))))

theorem specStrip_eq_drop : ∀ l : List Char, specStrip l = l.drop (2 * tokRun l)
  | [] => rfl
  | [a] => rfl
  | a :: b :: rest => by
    by_cases h : isTok a b
    · have ih := specStrip_eq_drop rest
      have h2 : 2 * (tokRun rest + 1) = 2 * tokRun rest + 1 + 1 := by omega
      simp only [specStrip, tokRun, h, if_true, ih, h2, List.drop_succ_cons]
    · simp [specStrip, tokRun, h]

theorem tokRun_drop : ∀ l : List Char, tokRun (l.drop (2 * tokRun l)) = 0
  | [] => rfl
  | [a] => rfl
  | a :: b :: rest => by
    by_cases h : isTok a b
    · have ih := tokRun_drop rest
      have h2 : 2 * (tokRun rest + 1) = 2 * tokRun rest + 1 + 1 := by omega
      simp only [tokRun, h, if_true, h2, List.drop_succ_cons]
      exact ih
    · simp [tokRun, h]

theorem stripLoopF_eq (f : Nat) (l : List Char) (hf : 1 ≤ f) :
    stripLoopF f l = l.drop (2 * tokRun l) := by
  obtain ⟨f, rfl⟩ : ∃ g, f = g + 1 := ⟨f - 1, by omega⟩
  by_cases h : tokRun l = 0
  · simp [stripLoopF, findStripIndex, h]
  · have h1 : findStripIndex l = some (2 * tokRun l) := by
      simp [findStripIndex, h]
    have h2 : findStripIndex (l.drop (2 * tokRun l)) = none := by
      simp [findStripIndex, tokRun_drop l]
    cases f with
    | zero => simp [stripLoopF, h1]
    | succ g => simp [stripLoopF, h1, h2]

theorem stripLoop_eq_specStrip (l : List Char) : stripLoop l = specStrip l := by
  cases l with
  | nil => rfl
  | cons a t =>
    rw [stripLoop, stripLoopF_eq _ _ (by simp), specStrip_eq_drop]

/-- Claim C1: `cleanName` equals the four-step reference algorithm: trim
surrounding whitespace and lower-case, repeatedly strip every leading run
of the two-character tokens 20, 25, 2b, 2f, 3d, 3a, 40 until no run
remains at the start, trim leading and trailing dashes, and drop a single
leading dot only when the resulting string has length greater than one;
in particular `cleanName "." = "."` and
`cleanName ".example.com" = "example.com"`. -/
theorem cleanName_four_step_reference :
    (∀ s : String, cleanName s = cleanNameSpec s) ∧
    cleanName "." = "." ∧ cleanName ".example.com" = "example.com" := by
  refine ⟨fun s => ?_, by decide, by decide⟩
  unfold cleanName cleanNameSpec
  rw [stripLoop_eq_specStrip]

/-! ## IPv6NibbleFormat (network.go) -/

/-- Go `strings.Split(ip, "")`: the list of one-character strings of the
input. -/
def goSplitEmpty (s : String) : List String :=
  s.data.map (fun c => String.mk [c])

/-- `IPv6NibbleFormat` from network.go: walk the one-character pieces from
the last index down to the first, then `strings.Join` the reversed pieces
with the separator ".". -/
def ipv6NibbleFormat (ip : String) : String :=
  String.intercalate "." (goSplitEmpty ip).reverse

/-- Plain character-order reversal, as the specification sentence for
`IPv6NibbleFormat` describes the function. -/
def charReverseSpec (s : String) : String := String.mk s.data.reverse

/-- Claim C5 counterexample: on the input "ab" the source returns "b.a",
not the plain reversal "ba" the claim asserts. -/
theorem ipv6NibbleFormat_not_plain_reverse :
    ipv6NibbleFormat "ab" = "b.a" ∧ charReverseSpec "ab" = "ba" ∧
      ipv6NibbleFormat "ab" ≠ charReverseSpec "ab" := by
  refine ⟨by decide, by decide, by decide⟩

/-- Claim C5 (amended): `IPv6NibbleFormat` returns the characters of the
input in reversed order, joined with "." separators between consecutive
characters (dot-separated nibble form, not a plain reversal). -/
theorem ipv6NibbleFormat_dotted_reverse (s : String) :
    ipv6NibbleFormat s =
      String.intercalate "."
        ((charReverseSpec s).data.map (fun c => String.mk [c])) := by
  unfold ipv6NibbleFormat goSplitEmpty charReverseSpec
  simp [List.map_reverse]

/-! ## IsIPv4 / IsIPv6 (network.go)

Both functions look only at `ip.String()`; they are modelled as functions
of that textual form, so by construction the classification depends on
the colon count of the text and never on the byte length of the address. -/

/-- Go `strings.Count(s, ":")` for the one-character pattern. -/
def colonCount (s : String) : Nat := s.data.countP (fun c => c == ':')

/-- `IsIPv4` from network.go, as a function of the textual form of the
address. -/
def isIPv4Str (s : String) : Bool := decide (colonCount s < 2)

/-- `IsIPv6` from network.go, as a function of the textual form of the
address. -/
def isIPv6Str (s : String) : Bool := decide (2 ≤ colonCount s)

/-- Claim C9: `IsIPv4` holds exactly when the textual form has fewer than
two colons, `IsIPv6` exactly when it has two or more, and on every
textual form exactly one of the two holds. -/
theorem isIPv4_isIPv6_partition (s : String) :
    isIPv4Str s = decide (colonCount s < 2) ∧
    isIPv6Str s = decide (2 ≤ colonCount s) ∧
    isIPv4Str s = !isIPv6Str s ∧
    (isIPv4Str s || isIPv6Str s) = true ∧
    (isIPv4Str s && isIPv6Str s) = false := by
  unfold isIPv4Str isIPv6Str
  refine ⟨rfl, rfl, ?_, ?_, ?_⟩ <;>
    by_cases h : colonCount s < 2 <;> simp [h] <;> omega

/-! ## Web-archive crawler (`crawl`, sources package)

The select loop of `crawl` waits on five channels: new link, new name,
the 10-second timer, the fetch queue's done signal, and the owning
service's quit signal.  The scheduling of those channels is abstracted as
a sequence of events consumed in order by the single coordinating loop;
`done` stands for the queue-drained signal and `quit` for the service
cancellation.  The timer case only spawns an asynchronous queue cancel
and does not change any loop state. -/

inductive CrawlEvent where
  | link : String → CrawlEvent
  | name : String → CrawlEvent
  | timeout : CrawlEvent
  | done : CrawlEvent
  | quit : CrawlEvent
deriving DecidableEq

/-- Modelled from the spec: `utils.UniqueAppend` is defined in a utils
file not included in the sources; the specification says discovered names
are "deduplicated into the result list preserving first-seen order". -/
def uniqueAppend (l : List String) (s : String) : List String :=
  if s ∈ l then l else l ++ [s]

/-- The select loop of `crawl` over the event sequence, carrying the
accumulated results and the already-queued links filter; `some results`
is a return from the loop (a `done` or `quit` event), `none` means no
terminating event was delivered and the Go loop is still waiting. -/
def crawlLoop : List CrawlEvent → List String → List String → Option (List String)
  | [], _, _ => none
  | e :: es, results, linksFilter =>
    match e with
    | CrawlEvent.link l =>
      if l ∈ linksFilter then crawlLoop es results linksFilter
      else crawlLoop es results (linksFilter ++ [l])
    | CrawlEvent.name n => crawlLoop es (uniqueAppend results n) linksFilter
    | CrawlEvent.timeout => crawlLoop es results linksFilter
    | CrawlEvent.done => some results
    | CrawlEvent.quit => some results

/-- The descriptive error text built by `crawl` when issuing the seed
request fails (the URL and transport error interpolated by the source are
kept abstract). -/
def crawlSeedErr : String := "Crawler error: GET"

/-- `crawl` from the sources package: a failed seed send returns the
still-empty results with a descriptive error; otherwise the select loop
runs over the delivered events and a terminating event returns the
accumulated names with a nil error. -/
def crawl (seedOk : Bool) (events : List CrawlEvent) :
    Option (List String × Option String) :=
  if seedOk then (crawlLoop events [] []).map (fun r => (r, none))
  else some (([] : List String), some crawlSeedErr)

/-- Claim C3: `crawl` returns a non-nil error only when the seed request
fails, and then with an empty result list; every terminating run with a
successful seed returns the collected names with a nil error, and the
`done` (queue drained, also after the timeout's asynchronous cancel) and
`quit` (service cancellation) termination causes are indistinguishable in
the returned values; `timeout` events change no loop state. -/
theorem crawl_error_only_on_seed_failure :
    (∀ events, crawl false events = some ([], some crawlSeedErr)) ∧
    (∀ events res err, crawl true events = some (res, some err) → False) ∧
    (∀ events res, crawlLoop events [] [] = some res →
        crawl true events = some (res, none)) ∧
    (∀ events results filt,
        crawlLoop (events ++ [CrawlEvent.done]) results filt =
          crawlLoop (events ++ [CrawlEvent.quit]) results filt) ∧
    (∀ events results filt,
        crawlLoop (CrawlEvent.timeout :: events) results filt =
          crawlLoop events results filt) := by
  refine ⟨fun events => rfl, ?_, ?_, ?_, fun events results filt => rfl⟩
  · intro events res err h
    simp only [crawl, if_pos, Option.map_eq_some'] at h
    obtain ⟨a, _, ha⟩ := h
    exact Option.some_ne_none err (congrArg Prod.snd ha).symm
  · intro events res h
    simp [crawl, h]
  · intro events results filt
    induction events generalizing results filt with
    | nil => rfl
    | cons e es ih =>
      cases e with
      | link l =>
        simp only [List.cons_append, crawlLoop]
        split <;> exact ih _ _
      | name n => simpa only [List.cons_append, crawlLoop] using ih _ _
      | timeout => simpa only [List.cons_append, crawlLoop] using ih _ _
      | done => rfl
      | quit => rfl

/-- Claim C3 witness: a concrete terminated run (one discovered name,
then service cancellation) returns the collected names with a nil
error. -/
theorem crawl_error_only_on_seed_failure_witness :
    crawl true [CrawlEvent.name "a", CrawlEvent.quit] = some (["a"], none) :=
  crawl_error_only_on_seed_failure.2.2.1 _ _ rfl

/-! ## RequestWebPage (network.go)

The HTTP transport is abstracted: `buildErr` is the outcome of
`http.NewRequest`, and `doResult` is the outcome of `defaultClient.Do` as
a function of the request that was built.  A response carries the status
code and text together with the outcome of `ioutil.ReadAll` on its body:
the bytes read before any failure (`partialBody`) and the read error the
source discards (`readErr`). -/

structure GoResponse where
  status : Nat
  statusText : String
  partialBody : String
  readErr : Option String
deriving DecidableEq

structure GoRequest where
  method : String
  basicAuth : Option (String × String)
deriving DecidableEq

/-- Request construction inside `RequestWebPage`: method "POST" exactly
when a body reader is supplied, "GET" otherwise, and `SetBasicAuth`
called exactly when both uid and secret are non-empty. -/
def buildRequest (body : Option String) (uid secret : String) : GoRequest :=
  { method := if body.isSome then "POST" else "GET"
    basicAuth := if uid != "" && secret != "" then some (uid, secret) else none }

/-- `RequestWebPage` from network.go: a request-build failure or a
transport failure is returned as the error; a status outside [200,300)
is returned as an error carrying the status text; otherwise the bytes
read from the body are returned with a nil error — the `ReadAll` error is
discarded by the source. -/
def requestWebPage (body : Option String) (uid secret : String)
    (buildErr : Option String) (doResult : GoRequest → Except String GoResponse) :
    Except String String :=
  match buildErr with
  | some e => Except.error e
  | none =>
    match doResult (buildRequest body uid secret) with
    | Except.error e => Except.error e
    | Except.ok resp =>
      if resp.status < 200 || 300 ≤ resp.status then Except.error resp.statusText
      else Except.ok resp.partialBody

/-- Claim C4: the method is POST exactly when a body is supplied, basic
authentication is attached exactly when both uid and secret are
non-empty, and the call fails exactly on a build failure, a transport
failure, or a status outside [200,300); a status inside [200,300) returns
the response body with a nil error. -/
theorem requestWebPage_spec (body : Option String) (uid secret : String)
    (buildErr : Option String) (doResult : GoRequest → Except String GoResponse) :
    ((buildRequest body uid secret).method = "POST" ↔ body ≠ none) ∧
    ((buildRequest body uid secret).method = "GET" ↔ body = none) ∧
    ((buildRequest body uid secret).basicAuth = some (uid, secret) ↔
        (uid ≠ "" ∧ secret ≠ "")) ∧
    (∀ e, buildErr = some e →
        requestWebPage body uid secret buildErr doResult = Except.error e) ∧
    (∀ e, buildErr = none →
        doResult (buildRequest body uid secret) = Except.error e →
        requestWebPage body uid secret buildErr doResult = Except.error e) ∧
    (∀ resp, buildErr = none →
        doResult (buildRequest body uid secret) = Except.ok resp →
        ((resp.status < 200 ∨ 300 ≤ resp.status) →
            requestWebPage body uid secret buildErr doResult =
              Except.error resp.statusText) ∧
        (200 ≤ resp.status → resp.status < 300 →
            requestWebPage body uid secret buildErr doResult =
              Except.ok resp.partialBody)) := by
  refine ⟨?_, ?_, ?_, ?_, ?_, ?_⟩
  · cases body <;> simp [buildRequest]
  · cases body <;> simp [buildRequest]
  · by_cases hu : uid = "" <;> by_cases hs : secret = "" <;>
      simp [buildRequest, hu, hs]
  · intro e he
    simp [requestWebPage, he]
  · intro e hb hd
    simp [requestWebPage, hb, hd]
  · intro resp hb hd
    constructor
    · intro hout
      simp only [requestWebPage, hb, hd]
      rw [if_pos]
      rcases hout with h | h <;> simp [h]
    · intro h1 h2
      simp only [requestWebPage, hb, hd]
      rw [if_neg]
      simp
      omega

/-- Claim C4 witness: a POSTed body with basic auth and a 201 response
returns the body text with a nil error. -/
theorem requestWebPage_spec_witness :
    requestWebPage (some "q") "u" "p" none
        (fun _ => Except.ok ⟨201, "201 Created", "resp", none⟩) =
      Except.ok "resp" :=
  ((requestWebPage_spec (some "q") "u" "p" none
      (fun _ => Except.ok ⟨201, "201 Created", "resp", none⟩)).2.2.2.2.2
    ⟨201, "201 Created", "resp", none⟩ rfl rfl).2 (by decide) (by decide)

/-- Claim C10: for a status inside [200,300) the error from reading the
response body is discarded: whatever bytes were read are returned as the
result string with a nil error, whatever `readErr` is. -/
theorem requestWebPage_swallows_read_error (body : Option String)
    (uid secret : String) (doResult : GoRequest → Except String GoResponse)
    (resp : GoResponse)
    (hd : doResult (buildRequest body uid secret) = Except.ok resp)
    (hlo : 200 ≤ resp.status) (hhi : resp.status < 300) :
    requestWebPage body uid secret none doResult = Except.ok resp.partialBody := by
  simp only [requestWebPage, hd]
  rw [if_neg]
  simp
  omega

/-- Claim C10 witness: a 206 response whose body read fails partway
through still returns the truncated bytes with a nil error. -/
theorem requestWebPage_swallows_read_error_witness :
    requestWebPage none "" "" none
        (fun _ => Except.ok ⟨206, "206 Partial Content", "trunc", some "unexpected EOF"⟩) =
      Except.ok "trunc" :=
  requestWebPage_swallows_read_error none "" ""
    (fun _ => Except.ok ⟨206, "206 Partial Content", "trunc", some "unexpected EOF"⟩)
    ⟨206, "206 Partial Content", "trunc", some "unexpected EOF"⟩
    rfl (by decide) (by decide)

/-! ## NetHosts (network.go)

`NetHosts` iterates over the block's own byte-length address slice: the
running address is a `w`-bit value (w = 32 for a 4-byte block, 128 for a
16-byte block) and `addrInc` wraps at `2 ^ w`.  `IPNet.Contains` first
normalizes both sides with `To4`: a v4-mapped 16-byte network address is
compared as its low 4 bytes under the last 4 mask bytes, a candidate
whose byte length disagrees after the conversion is rejected outright —
so a 16-byte enumeration stops as soon as it reaches the v4-mapped
window `::ffff:0:0`. -/

theorem pow128 : (2 : Nat) ^ 128 = 340282366920938463463374607431768211456 := by
  norm_num

theorem pow127 : (2 : Nat) ^ 127 = 170141183460469231731687303715884105728 := by
  norm_num

/-- The v4-mapped offset: the value of the 16-byte prefix `::ffff:0:0`
that Go `To16` puts in front of a 4-byte address. -/
def M4 : Nat := 0xffff * 2 ^ 32

/-- Go `To4` succeeds on a 16-byte slice exactly when its value lies in
the v4-mapped window. -/
def v4mapped (v : Nat) : Bool := decide (M4 ≤ v) && decide (v < M4 + 2 ^ 32)

theorem v4mapped_false_of_lt {v : Nat} (h : v < M4) : v4mapped v = false := by
  unfold v4mapped
  rw [decide_eq_false (by omega : ¬(M4 ≤ v))]
  rfl

theorem v4mapped_false_of_ge {v : Nat} (h : M4 + 2 ^ 32 ≤ v) : v4mapped v = false := by
  unfold v4mapped
  rw [decide_eq_false (by omega : ¬(v < M4 + 2 ^ 32))]
  simp

theorem v4mapped_true {v : Nat} (h1 : M4 ≤ v) (h2 : v < M4 + 2 ^ 32) :
    v4mapped v = true := by
  unfold v4mapped
  rw [decide_eq_true h1, decide_eq_true h2]
  rfl

/-- `cidr.IP.Mask(cidr.Mask)`: clear the `w - p` host bits of the base
address (p is the mask's ones count). -/
def maskBase (w p base : Nat) : Nat := base / 2 ^ (w - p) * 2 ^ (w - p)

/-- `IPNet.Contains` for a `w`-bit block with (unmasked) address `base`
and a candidate slice of the block's own byte length.  For a 4-byte
block both sides are 4 bytes and are compared under the mask.  For a
16-byte block `Contains` applies `To4` to the candidate: when the
network address is itself v4-mapped it is compared as its low 4 bytes
under the last 4 mask bytes (all-zero for a ones count up to 96 — which
the 128-bit host-length division reproduces), and a non-mapped candidate
fails the ensuing byte-length check; when the network address is a plain
16-byte address, a v4-mapped candidate fails the byte-length check and
every other candidate is compared under the full mask.  Both sides are
masked before comparison, hence the division by the host size. -/
def containsW (w p base ip : Nat) : Bool :=
  if w == 32 then
    ip / 2 ^ (32 - p) == base / 2 ^ (32 - p)
  else
    if v4mapped base then
      v4mapped ip &&
        ((ip - M4) / 2 ^ (128 - p) == (base - M4) / 2 ^ (128 - p))
    else
      !(v4mapped ip) && (ip / 2 ^ (128 - p) == base / 2 ^ (128 - p))

theorem containsW_32 (p base ip : Nat) :
    containsW 32 p base ip = (ip / 2 ^ (32 - p) == base / 2 ^ (32 - p)) := rfl

theorem containsW_128 (p base ip : Nat) :
    containsW 128 p base ip =
      (if v4mapped base then
        v4mapped ip &&
          ((ip - M4) / 2 ^ (128 - p) == (base - M4) / 2 ^ (128 - p))
      else
        !(v4mapped ip) && (ip / 2 ^ (128 - p) == base / 2 ^ (128 - p))) := rfl

/-- `addrInc` on a `w`-bit address slice: byte-wise increment with carry,
i.e. addition of one modulo `2 ^ w`. -/
def addrIncW (w ip : Nat) : Nat := (ip + 1) % 2 ^ w

/-- The enumeration loop of `NetHosts`.  The Go `for` is unbounded; a
fuel of `2 ^ (w - p) + 1` covers every terminating run of the loop (the
loop body executes at most once per address of the block plus the final
failing `Contains` check). -/
def netHostsLoop (w p base : Nat) : Nat → Nat → List Nat
  | 0, _ => []
  | f + 1, ip =>
    if containsW w p base ip then ip :: netHostsLoop w p base f (addrIncW w ip)
    else []

/-- The final Go slice expression `ips[1 : len(ips)-1]`; `none` models
the runtime bounds panic raised when `1 > len(ips) - 1`. -/
def goSliceTrim (l : List Nat) : Option (List Nat) :=
  if 2 ≤ l.length then some ((l.drop 1).take (l.length - 2)) else none

/-- `NetHosts` from network.go over a `w`-bit block with mask ones-count
`p` and address `base`: enumerate from the masked base while the block
contains the address, then drop the first and last entries. -/
def netHosts (w p base : Nat) : Option (List Nat) :=
  goSliceTrim (netHostsLoop w p base (2 ^ (w - p) + 1) (maskBase w p base))

theorem masked_add_le {W P b : Nat} (hP : P ≤ W) (hb : b < 2 ^ W)
    (hm : b % 2 ^ (W - P) = 0) : b + 2 ^ (W - P) ≤ 2 ^ W := by
  have hN : 0 < 2 ^ (W - P) := by positivity
  have hq : 2 ^ (W - P) * (b / 2 ^ (W - P)) = b :=
    Nat.mul_div_cancel' (Nat.dvd_of_mod_eq_zero hm)
  have hpow : 2 ^ W = 2 ^ P * 2 ^ (W - P) := by
    rw [← pow_add]
    congr 1
    omega
  have hqlt : b / 2 ^ (W - P) < 2 ^ P := by
    rw [Nat.div_lt_iff_lt_mul hN]
    calc b < 2 ^ W := hb
    _ = 2 ^ P * 2 ^ (W - P) := hpow
  calc b + 2 ^ (W - P) = 2 ^ (W - P) * (b / 2 ^ (W - P) + 1) := by
        rw [Nat.mul_add, Nat.mul_one, hq]
  _ ≤ 2 ^ (W - P) * 2 ^ P := Nat.mul_le_mul_left _ (by omega)
  _ = 2 ^ W := by rw [hpow]; ring

theorem maskBase_mod (w p base : Nat) : maskBase w p base % 2 ^ (w - p) = 0 :=
  Nat.mul_mod_left _ _

theorem maskBase_le (w p base : Nat) : maskBase w p base ≤ base :=
  Nat.div_mul_le_self base _

theorem maskBase_div (w p base : Nat) :
    maskBase w p base / 2 ^ (w - p) = base / 2 ^ (w - p) := by
  unfold maskBase
  rw [Nat.mul_div_cancel _ (by positivity)]

theorem maskBase_add_le (w p base : Nat) (hpw : p ≤ w) (hbase : base < 2 ^ w) :
    maskBase w p base + 2 ^ (w - p) ≤ 2 ^ w :=
  masked_add_le hpw (lt_of_le_of_lt (maskBase_le w p base) hbase)
    (maskBase_mod w p base)

theorem in_block_div (w p net base : Nat) (hmod : net % 2 ^ (w - p) = 0)
    (hdiv : net / 2 ^ (w - p) = base / 2 ^ (w - p)) (i : Nat)
    (hi : i < 2 ^ (w - p)) :
    (net + i) / 2 ^ (w - p) = base / 2 ^ (w - p) := by
  have hN : 0 < 2 ^ (w - p) := by positivity
  have hq : net = 2 ^ (w - p) * (net / 2 ^ (w - p)) :=
    (Nat.mul_div_cancel' (Nat.dvd_of_mod_eq_zero hmod)).symm
  conv_lhs => rw [hq]
  rw [Nat.mul_add_div hN, Nat.div_eq_of_lt hi]
  omega

theorem stop_div_ne (w p net base : Nat) (hp : 1 ≤ p) (hpw : p ≤ w)
    (hmod : net % 2 ^ (w - p) = 0)
    (hdiv : net / 2 ^ (w - p) = base / 2 ^ (w - p))
    (hhi : net + 2 ^ (w - p) ≤ 2 ^ w) :
    ¬(((net + 2 ^ (w - p)) % 2 ^ w) / 2 ^ (w - p) = base / 2 ^ (w - p)) := by
  have hN : 0 < 2 ^ (w - p) := by positivity
  rw [← hdiv]
  rcases Nat.lt_or_ge (net + 2 ^ (w - p)) (2 ^ w) with hlt | hge
  · rw [Nat.mod_eq_of_lt hlt, Nat.add_div_right _ hN]
    omega
  · have heq : net + 2 ^ (w - p) = 2 ^ w := by omega
    rw [heq, Nat.mod_self, Nat.zero_div]
    have hpow : 2 ^ w = 2 ^ p * 2 ^ (w - p) := by
      rw [← pow_add]
      congr 1
      omega
    have h2p : 2 ≤ 2 ^ p := by
      calc 2 = 2 ^ 1 := by norm_num
      _ ≤ 2 ^ p := Nat.pow_le_pow_right (by norm_num) hp
    have hq : net = 2 ^ (w - p) * (net / 2 ^ (w - p)) :=
      (Nat.mul_div_cancel' (Nat.dvd_of_mod_eq_zero hmod)).symm
    have hmul : 2 ^ (w - p) * (net / 2 ^ (w - p) + 1) = 2 ^ (w - p) * 2 ^ p := by
      rw [Nat.mul_add, ← hq, Nat.mul_one, heq, hpow]
      ring
    have := Nat.eq_of_mul_eq_mul_left hN hmul
    omega

theorem netHostsLoop_seg (w p base start L : Nat) (hwrap : start + L ≤ 2 ^ w)
    (htrue : ∀ i, i < L → containsW w p base (start + i) = true)
    (hfalse : containsW w p base ((start + L) % 2 ^ w) = false) :
    ∀ k f : Nat, k ≤ L → k + 1 ≤ f →
      netHostsLoop w p base f ((start + (L - k)) % 2 ^ w) =
        (List.range k).map (fun i => start + (L - k) + i) := by
  intro k
  induction k with
  | zero =>
    intro f hk hf
    obtain ⟨f, rfl⟩ : ∃ g, f = g + 1 := ⟨f - 1, by omega⟩
    simp only [Nat.sub_zero, List.range_zero, List.map_nil]
    simp [netHostsLoop, hfalse]
  | succ k ih =>
    intro f hk hf
    obtain ⟨f, rfl⟩ : ∃ g, f = g + 1 := ⟨f - 1, by omega⟩
    have hlt : start + (L - (k + 1)) < 2 ^ w := by omega
    rw [Nat.mod_eq_of_lt hlt]
    have ht := htrue (L - (k + 1)) (by omega)
    simp only [netHostsLoop, ht, if_true]
    have harg : addrIncW w (start + (L - (k + 1))) = (start + (L - k)) % 2 ^ w := by
      unfold addrIncW
      congr 1
      omega
    rw [harg, ih f (by omega) (by omega)]
    have hlist :
        List.map (fun i => start + (L - (k + 1)) + i) (List.range (k + 1)) =
          (start + (L - (k + 1))) ::
            List.map (fun i => start + (L - k) + i) (List.range k) := by
      rw [List.range_succ_eq_map, List.map_cons, List.map_map]
      refine congrArg₂ List.cons (by omega) ?_
      apply List.map_congr_left
      intro a ha
      simp only [Function.comp_apply]
      omega
    rw [hlist]

theorem sliceInner (f : Nat → Nat) (n : Nat) (h : 2 ≤ n) :
    (((List.range n).map f).drop 1).take (n - 2) =
      (List.range (n - 2)).map (fun i => f (i + 1)) := by
  obtain ⟨m, rfl⟩ : ∃ m, n = m + 2 := ⟨n - 2, by omega⟩
  rw [show m + 2 = m + 1 + 1 from rfl, List.range_succ_eq_map, List.map_cons,
    List.drop_one, List.tail_cons, List.map_map,
    show m + 1 + 1 - 2 = m from by omega, ← List.map_take, List.take_range]
  have hmin : m ⊓ (m + 1) = m := by omega
  rw [hmin]
  exact List.map_congr_left fun a ha => rfl

theorem netHosts_seg_result (w p base L : Nat) (hL2 : 2 ≤ L)
    (hLfuel : L + 1 ≤ 2 ^ (w - p) + 1) (hbase : base < 2 ^ w)
    (hwrap : maskBase w p base + L ≤ 2 ^ w)
    (htrue : ∀ i, i < L → containsW w p base (maskBase w p base + i) = true)
    (hfalse : containsW w p base ((maskBase w p base + L) % 2 ^ w) = false) :
    netHosts w p base =
      some ((List.range (L - 2)).map (fun i => maskBase w p base + 1 + i)) := by
  have hnetw : maskBase w p base < 2 ^ w :=
    lt_of_le_of_lt (maskBase_le w p base) hbase
  have hrun := netHostsLoop_seg w p base (maskBase w p base) L hwrap htrue hfalse
    L (2 ^ (w - p) + 1) le_rfl hLfuel
  simp only [Nat.sub_self, Nat.add_zero] at hrun
  rw [Nat.mod_eq_of_lt hnetw] at hrun
  unfold netHosts
  rw [hrun]
  unfold goSliceTrim
  simp only [List.length_map, List.length_range]
  rw [if_pos hL2]
  congr 1
  refine (sliceInner (fun i => maskBase w p base + i) L hL2).trans ?_
  refine List.map_congr_left fun a ha => ?_
  show maskBase w p base + (a + 1) = maskBase w p base + 1 + a
  omega

/-- Claim C2 counterexample: on the host-route block 10.0.0.1/32 the
enumeration collects exactly one address, so the final Go slice
`ips[1:len(ips)-1]` is `ips[1:0]`, whose bounds are out of range (a
runtime panic, modelled as `none`); the claim asserts an empty result
with no out-of-range slicing. -/
theorem netHosts_slash32_out_of_range : netHosts 32 32 167772161 = none := by
  decide

/-- Claim C2 (amended): for every 4-byte block with `1 ≤ prefixLen < 32`,
`NetHosts` returns the ordered host addresses with the network and
broadcast addresses dropped, of length `2 ^ hostBits - 2` (so a /31
yields the empty list); the same holds for every 16-byte block with
`1 ≤ prefixLen < 128` whose address is not v4-mapped and whose range
avoids the v4-mapped window (so a /127 yields the empty list), while a
16-byte block reaching into that window stops enumerating at
`::ffff:0:0` — `Contains` rejects v4-mapped candidates after `To4` — and
yields `0xffff00000000 - network - 2` addresses; and for a full-mask /32
or /128 block the final slice `ips[1:len(ips)-1]` is out of range and
the function panics instead of returning an empty result. -/
theorem netHosts_amended :
    (∀ p base, 1 ≤ p → p < 32 → base < 2 ^ 32 →
      netHosts 32 p base =
        some ((List.range (2 ^ (32 - p) - 2)).map
          (fun i => maskBase 32 p base + 1 + i)) ∧
      ∀ l, netHosts 32 p base = some l → l.length = 2 ^ (32 - p) - 2) ∧
    (∀ p base, 1 ≤ p → p < 128 → base < 2 ^ 128 → v4mapped base = false →
      (maskBase 128 p base + 2 ^ (128 - p) ≤ M4 ∨
        M4 + 2 ^ 32 ≤ maskBase 128 p base) →
      netHosts 128 p base =
        some ((List.range (2 ^ (128 - p) - 2)).map
          (fun i => maskBase 128 p base + 1 + i)) ∧
      ∀ l, netHosts 128 p base = some l → l.length = 2 ^ (128 - p) - 2) ∧
    (∀ p base, 1 ≤ p → p < 128 → base < 2 ^ 128 → v4mapped base = false →
      maskBase 128 p base < M4 → M4 < maskBase 128 p base + 2 ^ (128 - p) →
      netHosts 128 p base =
        some ((List.range (M4 - maskBase 128 p base - 2)).map
          (fun i => maskBase 128 p base + 1 + i)) ∧
      ∀ l, netHosts 128 p base = some l →
        l.length = M4 - maskBase 128 p base - 2) ∧
    (∀ base, base < 2 ^ 32 → netHosts 32 32 base = none) ∧
    (∀ base, base < 2 ^ 128 → netHosts 128 128 base = none) := by
  refine ⟨?_, ?_, ?_, ?_, ?_⟩
  · intro p base hp hpw hbase
    have hN : 0 < 2 ^ (32 - p) := by positivity
    have h2 : 2 ≤ 2 ^ (32 - p) := by
      calc 2 = 2 ^ 1 := by norm_num
      _ ≤ 2 ^ (32 - p) := Nat.pow_le_pow_right (by norm_num) (by omega)
    have htrue : ∀ i, i < 2 ^ (32 - p) →
        containsW 32 p base (maskBase 32 p base + i) = true := by
      intro i hi
      rw [containsW_32, beq_iff_eq]
      exact in_block_div 32 p (maskBase 32 p base) base (maskBase_mod 32 p base)
        (maskBase_div 32 p base) i hi
    have hfalse :
        containsW 32 p base ((maskBase 32 p base + 2 ^ (32 - p)) % 2 ^ 32) = false := by
      rw [containsW_32, beq_eq_false_iff_ne]
      exact stop_div_ne 32 p (maskBase 32 p base) base hp (by omega)
        (maskBase_mod 32 p base) (maskBase_div 32 p base)
        (maskBase_add_le 32 p base (by omega) hbase)
    have hmain := netHosts_seg_result 32 p base (2 ^ (32 - p)) h2 le_rfl hbase
      (maskBase_add_le 32 p base (by omega) hbase) htrue hfalse
    refine ⟨hmain, fun l hl => ?_⟩
    rw [hmain] at hl
    cases hl
    simp
  · intro p base hp hpw hbase hbm hdisj
    have hN : 0 < 2 ^ (128 - p) := by positivity
    have h2 : 2 ≤ 2 ^ (128 - p) := by
      calc 2 = 2 ^ 1 := by norm_num
      _ ≤ 2 ^ (128 - p) := Nat.pow_le_pow_right (by norm_num) (by omega)
    have hwrap := maskBase_add_le 128 p base (by omega) hbase
    have hmapf : ∀ i, i < 2 ^ (128 - p) →
        v4mapped (maskBase 128 p base + i) = false := by
      intro i hi
      rcases hdisj with hd | hd
      · exact v4mapped_false_of_lt (by omega)
      · exact v4mapped_false_of_ge (by omega)
    have htrue : ∀ i, i < 2 ^ (128 - p) →
        containsW 128 p base (maskBase 128 p base + i) = true := by
      intro i hi
      rw [containsW_128, hbm]
      simp only [Bool.false_eq_true, if_false, hmapf i hi, Bool.not_false,
        Bool.true_and, beq_iff_eq]
      exact in_block_div 128 p (maskBase 128 p base) base (maskBase_mod 128 p base)
        (maskBase_div 128 p base) i hi
    have hfalse :
        containsW 128 p base ((maskBase 128 p base + 2 ^ (128 - p)) % 2 ^ 128) =
          false := by
      rw [containsW_128, hbm]
      simp only [Bool.false_eq_true, if_false]
      rcases Bool.eq_false_or_eq_true
        (v4mapped ((maskBase 128 p base + 2 ^ (128 - p)) % 2 ^ 128)) with hm | hm
      · rw [hm]
        rfl
      · rw [hm]
        simp only [Bool.not_false, Bool.true_and, beq_eq_false_iff_ne, ne_eq]
        exact stop_div_ne 128 p (maskBase 128 p base) base hp (by omega)
          (maskBase_mod 128 p base) (maskBase_div 128 p base) hwrap
    have hmain := netHosts_seg_result 128 p base (2 ^ (128 - p)) h2 le_rfl hbase
      hwrap htrue hfalse
    refine ⟨hmain, fun l hl => ?_⟩
    rw [hmain] at hl
    cases hl
    simp
  · intro p base hp hpw hbase hbm hlo hhiw
    have hN : 0 < 2 ^ (128 - p) := by positivity
    have hL2 : 2 ≤ M4 - maskBase 128 p base := by
      have hd1 : 2 ∣ maskBase 128 p base := by
        refine dvd_trans ?_ (Nat.dvd_of_mod_eq_zero (maskBase_mod 128 p base))
        exact dvd_pow_self 2 (by omega : 128 - p ≠ 0)
      have hd2 : (2 : Nat) ∣ M4 := by norm_num [M4]
      omega
    have hLle : M4 - maskBase 128 p base ≤ 2 ^ (128 - p) := by omega
    have hwrap : maskBase 128 p base + (M4 - maskBase 128 p base) ≤ 2 ^ 128 := by
      have : M4 < 2 ^ 128 := by rw [pow128]; norm_num [M4]
      omega
    have htrue : ∀ i, i < M4 - maskBase 128 p base →
        containsW 128 p base (maskBase 128 p base + i) = true := by
      intro i hi
      have hm : v4mapped (maskBase 128 p base + i) = false :=
        v4mapped_false_of_lt (by omega)
      rw [containsW_128, hbm]
      simp only [Bool.false_eq_true, if_false, hm, Bool.not_false,
        Bool.true_and, beq_iff_eq]
      exact in_block_div 128 p (maskBase 128 p base) base (maskBase_mod 128 p base)
        (maskBase_div 128 p base) i (by omega)
    have hfalse :
        containsW 128 p base
          ((maskBase 128 p base + (M4 - maskBase 128 p base)) % 2 ^ 128) =
          false := by
      have harg : (maskBase 128 p base + (M4 - maskBase 128 p base)) % 2 ^ 128 =
          M4 := by
        have h1 : maskBase 128 p base + (M4 - maskBase 128 p base) = M4 := by omega
        have h2 : M4 < 2 ^ 128 := by rw [pow128]; norm_num [M4]
        rw [h1, Nat.mod_eq_of_lt h2]
      rw [harg]
      have hm : v4mapped M4 = true := v4mapped_true le_rfl (by norm_num)
      rw [containsW_128, hbm]
      simp only [Bool.false_eq_true, if_false, hm]
      rfl
    have hmain := netHosts_seg_result 128 p base (M4 - maskBase 128 p base) hL2
      (by omega) hbase hwrap htrue hfalse
    refine ⟨hmain, fun l hl => ?_⟩
    rw [hmain] at hl
    cases hl
    simp
  · intro base hbase
    have hmask : maskBase 32 32 base = base := by
      simp [maskBase, Nat.sub_self]
    have htrue : ∀ i, i < 1 → containsW 32 32 base (base + i) = true := by
      intro i hi
      have hz : i = 0 := by omega
      subst hz
      rw [containsW_32]
      simp
    have hfalse : containsW 32 32 base ((base + 1) % 2 ^ 32) = false := by
      rw [containsW_32]
      simp only [Nat.sub_self, pow_zero, Nat.div_one, beq_eq_false_iff_ne,
        ne_eq]
      rcases Nat.lt_or_ge (base + 1) (2 ^ 32) with hlt | hge
      · rw [Nat.mod_eq_of_lt hlt]
        omega
      · have hbe : base + 1 = 2 ^ 32 := by omega
        rw [hbe, Nat.mod_self]
        have h2 : (2 : Nat) ≤ 2 ^ 32 := by norm_num
        omega
    have hrun := netHostsLoop_seg 32 32 base base 1 (by omega) htrue hfalse
      1 (2 ^ (32 - 32) + 1) le_rfl (by norm_num)
    simp only [Nat.sub_self, Nat.add_zero] at hrun
    rw [Nat.mod_eq_of_lt hbase] at hrun
    unfold netHosts
    rw [hmask, hrun]
    simp [goSliceTrim]
  · intro base hbase
    have hmask : maskBase 128 128 base = base := by
      simp [maskBase, Nat.sub_self]
    have htrue : ∀ i, i < 1 → containsW 128 128 base (base + i) = true := by
      intro i hi
      have hz : i = 0 := by omega
      subst hz
      rw [containsW_128]
      simp only [Nat.add_zero, Nat.sub_self, pow_zero, Nat.div_one]
      by_cases hb : v4mapped base = true
      · rw [if_pos hb]
        simp [hb]
      · rw [if_neg hb]
        simp only [Bool.not_eq_true] at hb
        simp [hb]
    have hfalse : containsW 128 128 base ((base + 1) % 2 ^ 128) = false := by
      rw [containsW_128]
      simp only [Nat.sub_self, pow_zero, Nat.div_one]
      have hne : (base + 1) % 2 ^ 128 ≠ base := by
        rcases Nat.lt_or_ge (base + 1) (2 ^ 128) with hlt | hge
        · rw [Nat.mod_eq_of_lt hlt]
          omega
        · have hbe : base + 1 = 2 ^ 128 := by omega
          rw [hbe, Nat.mod_self]
          have h2 : (2 : Nat) ≤ 2 ^ 128 := by rw [pow128]; norm_num
          omega
      by_cases hb : v4mapped base = true
      · rw [if_pos hb]
        rcases Bool.eq_false_or_eq_true (v4mapped ((base + 1) % 2 ^ 128))
          with hm | hm
        · rw [hm]
          simp only [Bool.true_and, beq_eq_false_iff_ne, ne_eq]
          have hbw : M4 ≤ base ∧ base < M4 + 2 ^ 32 := by
            have := hb
            unfold v4mapped at this
            simp only [Bool.and_eq_true, decide_eq_true_eq] at this
            exact this
          have hcw : M4 ≤ (base + 1) % 2 ^ 128 := by
            have := hm
            unfold v4mapped at this
            simp only [Bool.and_eq_true, decide_eq_true_eq] at this
            exact this.1
          omega
        · rw [hm]
          rfl
      · rw [if_neg hb]
        rcases Bool.eq_false_or_eq_true (v4mapped ((base + 1) % 2 ^ 128))
          with hm | hm
        · rw [hm]
          rfl
        · rw [hm]
          simp only [Bool.not_false, Bool.true_and, beq_eq_false_iff_ne, ne_eq]
          exact hne
    have hrun := netHostsLoop_seg 128 128 base base 1 (by omega) htrue hfalse
      1 (2 ^ (128 - 128) + 1) le_rfl (by norm_num)
    simp only [Nat.sub_self, Nat.add_zero] at hrun
    rw [Nat.mod_eq_of_lt hbase] at hrun
    unfold netHosts
    rw [hmask, hrun]
    simp [goSliceTrim]

/-- Claim C2 witness (amended claim at a concrete block): 192.168.0.0/30
yields exactly the two middle host addresses. -/
theorem netHosts_amended_witness :
    netHosts 32 30 3232235520 = some [3232235521, 3232235522] := by
  have h := (netHosts_amended.1 30 3232235520 (by norm_num) (by norm_num)
    (by norm_num)).1
  rw [h]
  decide

/-! ## RangeHosts (network.go)

`RangeHosts` normalizes both endpoints to 16-byte form (`To16`), so the
iteration runs over 128-bit values; a 4-byte address is mapped to the
v4-mapped 16-byte value.  The loop re-parses each endpoint through
`ParseIP(x.String())`, which yields the same 16-byte value. -/

/-- A Go `net.IP` value: a 4-byte slice, a 16-byte slice (as its numeric
value), or a slice of any other length (`bad`, whose `To16` is nil). -/
inductive GoIP where
  | ip4 : Nat → GoIP
  | ip16 : Nat → GoIP
  | bad : GoIP

/-- `net.IP.To16`: a 4-byte address becomes the v4-mapped 16-byte value,
a 16-byte address stays itself, any other length gives nil. -/
def to16 : GoIP → Option Nat
  | GoIP.ip4 v => some (M4 + v)
  | GoIP.ip16 v => some v
  | GoIP.bad => none

/-- `addrInc` on a 16-byte address slice: increment with carry, i.e.
addition of one modulo `2 ^ 128`. -/
def addrInc128 (ip : Nat) : Nat := (ip + 1) % 2 ^ 128

/-- `addrDec` on a 16-byte address slice: decrement with borrow, i.e.
subtraction of one modulo `2 ^ 128`. -/
def addrDec128 (ip : Nat) : Nat := (ip + (2 ^ 128 - 1)) % 2 ^ 128

/-- The iteration of `RangeHosts`: collect addresses from `ip` until the
`stop` sentinel is reached.  The Go `for` is unbounded but reaches `stop`
within `2 ^ 128` steps, so that much fuel covers every run. -/
def rangeLoop : Nat → Nat → Nat → List Nat
  | 0, _, _ => []
  | f + 1, ip, stop =>
    if ip == stop then [] else ip :: rangeLoop f (addrInc128 ip) stop

/-- `RangeHosts` from network.go: nil endpoints or endpoints without a
16-byte form give an empty result, as does `end ≤ start` in 16-byte
byte order; otherwise iterate from `start` until the sentinel
`addrInc(end)` is reached. -/
def rangeHosts (start stop : Option GoIP) : List Nat :=
  match start, stop with
  | some s, some e =>
    match to16 s, to16 e with
    | some s16, some e16 =>
      if e16 ≤ s16 then []
      else rangeLoop (2 ^ 128) s16 (addrInc128 e16)
    | _, _ => []
  | _, _ => []

theorem rangeLoop_self (f ip : Nat) : rangeLoop f ip ip = [] := by
  cases f <;> simp [rangeLoop]

theorem rangeLoop_run : ∀ (n f s : Nat), n < f → s + n < 2 ^ 128 →
    (s + n = 2 ^ 128 - 1 → 0 < s) →
    rangeLoop f s (addrInc128 (s + n)) = (List.range (n + 1)).map (fun i => s + i) := by
  intro n
  induction n with
  | zero =>
    intro f s hf hb hc
    obtain ⟨f, rfl⟩ : ∃ g, f = g + 1 := ⟨f - 1, by omega⟩
    simp only [Nat.add_zero] at hb hc ⊢
    have hne : (s == addrInc128 s) = false := by
      simp only [beq_eq_false_iff_ne, ne_eq, addrInc128]
      rw [pow128] at hb hc ⊢
      omega
    simp [rangeLoop, hne, rangeLoop_self, List.range_succ_eq_map]
  | succ n ih =>
    intro f s hf hb hc
    obtain ⟨f, rfl⟩ : ∃ g, f = g + 1 := ⟨f - 1, by omega⟩
    have hne : (s == addrInc128 (s + (n + 1))) = false := by
      simp only [beq_eq_false_iff_ne, ne_eq, addrInc128]
      rw [pow128] at hb hc ⊢
      omega
    have hinc : addrInc128 s = s + 1 := by
      simp only [addrInc128]
      exact Nat.mod_eq_of_lt (by omega)
    simp only [rangeLoop, hne, Bool.false_eq_true, if_false, hinc]
    have ihh := ih f (s + 1) (by omega) (by omega) (by omega)
    rw [show s + 1 + n = s + (n + 1) from by omega] at ihh
    have hlist :
        List.map (fun i => s + i) (List.range (n + 1 + 1)) =
          s :: List.map (fun i => s + 1 + i) (List.range (n + 1)) := by
      rw [List.range_succ_eq_map, List.map_cons, List.map_map]
      refine congrArg₂ List.cons (by simp) ?_
      apply List.map_congr_left
      intro a ha
      show s + (a + 1) = s + 1 + a
      omega
    rw [ihh, hlist]

theorem rangeHosts_core (s16 e16 : Nat) (h1 : s16 < e16) (h2 : e16 < 2 ^ 128)
    (h3 : e16 = 2 ^ 128 - 1 → 0 < s16) :
    (if e16 ≤ s16 then ([] : List Nat)
      else rangeLoop (2 ^ 128) s16 (addrInc128 e16)) =
      (List.range (e16 - s16 + 1)).map (fun i => s16 + i) := by
  rw [if_neg (by omega)]
  obtain ⟨n, rfl⟩ : ∃ n, e16 = s16 + n := ⟨e16 - s16, by omega⟩
  rw [show s16 + n - s16 = n from by omega]
  exact rangeLoop_run n (2 ^ 128) s16 (by omega) h2 h3

/-- Claim C6 counterexample: for start `::` (all-zero) and end
`ff..ff` (all-one 16-byte value) the end is strictly greater than the
start, yet the incremented stop sentinel wraps around to equal the start
and `RangeHosts` returns the empty sequence instead of the inclusive
range. -/
theorem rangeHosts_full_span_empty :
    rangeHosts (some (GoIP.ip16 0)) (some (GoIP.ip16 (2 ^ 128 - 1))) = [] ∧
    0 < 2 ^ 128 - 1 := by
  constructor
  · show (if 2 ^ 128 - 1 ≤ 0 then ([] : List Nat)
      else rangeLoop (2 ^ 128) 0 (addrInc128 (2 ^ 128 - 1))) = []
    rw [if_neg (show ¬(2 ^ 128 - 1 ≤ 0) from by rw [pow128]; omega)]
    have hz : addrInc128 (2 ^ 128 - 1) = 0 := by
      simp only [addrInc128]
      rw [pow128]
    rw [hz, rangeLoop_self]
  · rw [pow128]
    omega

/-- Claim C6 (amended): `RangeHosts` returns the ordered inclusive
sequence of every address from start to end when end is strictly greater
than start in 16-byte form, and the empty sequence when an endpoint is
nil, has no 16-byte form, or end is not strictly greater (in particular
for reversed and equal endpoints) — except for the single corner where
start is the all-zero and end the all-one 16-byte value: there the stop
sentinel `addrInc(end)` wraps to start and the result is empty. -/
theorem rangeHosts_amended :
    (∀ e, rangeHosts none e = []) ∧
    (∀ s, rangeHosts s none = []) ∧
    (∀ e, rangeHosts (some GoIP.bad) e = []) ∧
    (∀ s, rangeHosts s (some GoIP.bad) = []) ∧
    (∀ s e s16 e16, to16 s = some s16 → to16 e = some e16 → e16 ≤ s16 →
        rangeHosts (some s) (some e) = []) ∧
    (∀ s e s16 e16, to16 s = some s16 → to16 e = some e16 →
        s16 < e16 → e16 < 2 ^ 128 → (e16 = 2 ^ 128 - 1 → 0 < s16) →
        rangeHosts (some s) (some e) =
          (List.range (e16 - s16 + 1)).map (fun i => s16 + i)) := by
  refine ⟨fun e => by cases e <;> rfl, fun s => by cases s <;> rfl, ?_, ?_, ?_, ?_⟩
  · intro e
    cases e with
    | none => rfl
    | some e2 => cases e2 <;> rfl
  · intro s
    cases s with
    | none => rfl
    | some s2 => cases s2 <;> rfl
  · intro s e s16 e16 hs he hle
    have hrw : rangeHosts (some s) (some e) =
        (match to16 s, to16 e with
        | some a, some b =>
          if b ≤ a then [] else rangeLoop (2 ^ 128) a (addrInc128 b)
        | _, _ => []) := rfl
    rw [hrw, hs, he]
    exact if_pos hle
  · intro s e s16 e16 hs he h1 h2 h3
    have hrw : rangeHosts (some s) (some e) =
        (match to16 s, to16 e with
        | some a, some b =>
          if b ≤ a then [] else rangeLoop (2 ^ 128) a (addrInc128 b)
        | _, _ => []) := rfl
    rw [hrw, hs, he]
    exact rangeHosts_core s16 e16 h1 h2 h3

/-- Claim C6 witness (amended claim at concrete endpoints): the range
from 10.0.0.1 to 10.0.0.3 is the three v4-mapped addresses in order. -/
theorem rangeHosts_amended_witness :
    rangeHosts (some (GoIP.ip4 167772161)) (some (GoIP.ip4 167772163)) =
      [M4 + 167772161, M4 + 167772162, M4 + 167772163] := by
  have h6 := rangeHosts_amended.2.2.2.2.2 (GoIP.ip4 167772161)
    (GoIP.ip4 167772163) (M4 + 167772161) (M4 + 167772163) rfl rfl
    (by decide) (by decide) (by decide)
  rw [h6]
  decide

/-! ## CIDRSubset (network.go)

`CIDRSubset` parses the center address with `ParseIP` (a 16-byte value),
walks it backward and forward with `addrDec`/`addrInc` under
`cidr.Contains`, and hands the resulting bounds to `RangeHosts`. -/

/-- A parsed `net.IPNet`: 4-byte or 16-byte family, mask ones-count, and
the (pre-masked) network address value in the native width. -/
structure GoIPNet where
  v4 : Bool
  pLen : Nat
  netVal : Nat

/-- Bit width of the block's own byte length. -/
def GoIPNet.bits (c : GoIPNet) : Nat := if c.v4 then 32 else 128

/-- Number of addresses in the block. -/
def GoIPNet.hostSize (c : GoIPNet) : Nat := 2 ^ (c.bits - c.pLen)

/-- `IPNet.Contains` applied to a 16-byte candidate value (the result of
`ParseIP`).  For a 4-byte block the candidate must convert back to 4
bytes under `To4` (be v4-mapped) and its low 32 bits masked must equal
the network address.  For a 16-byte block whose network address is
itself v4-mapped, the candidate must also be v4-mapped and the low 32
bits are compared under the last 4 mask bytes (all-zero for a ones
count up to 96 — which the 128-bit host-length division reproduces).
For a plain 16-byte network address, a v4-mapped candidate fails the
byte-length check after `To4` and every other candidate is compared
under the full mask. -/
def GoIPNet.contains (c : GoIPNet) (ip : Nat) : Bool :=
  if c.v4 then
    v4mapped ip &&
      ((ip - M4) / 2 ^ (32 - c.pLen) == c.netVal / 2 ^ (32 - c.pLen))
  else
    if v4mapped c.netVal then
      v4mapped ip &&
        ((ip - M4) / 2 ^ (128 - c.pLen) == (c.netVal - M4) / 2 ^ (128 - c.pLen))
    else
      !(v4mapped ip) && (ip / 2 ^ (128 - c.pLen) == c.netVal / 2 ^ (128 - c.pLen))

/-- First address of the block as a 16-byte value. -/
def GoIPNet.lo (c : GoIPNet) : Nat := if c.v4 then M4 + c.netVal else c.netVal

/-- Last address of the block as a 16-byte value. -/
def GoIPNet.hi (c : GoIPNet) : Nat := c.lo + c.hostSize - 1

/-- Well-formedness of a parsed block: positive mask ones-count within
the bit width, and a masked network address within the width. -/
def GoIPNet.wf (c : GoIPNet) : Prop :=
  1 ≤ c.pLen ∧ c.pLen ≤ c.bits ∧ c.netVal < 2 ^ c.bits ∧
    c.netVal % c.hostSize = 0

/-- Blocks whose contained set of 16-byte candidate values is a single
interval: every 4-byte block, and every 16-byte block with a plain
(non-v4-mapped) network address whose range does not meet the v4-mapped
window.  A 16-byte block that meets the window has the window cut out of
its contained set by the byte-length check. -/
def GoIPNet.clean (c : GoIPNet) : Prop :=
  c.v4 = true ∨
    (v4mapped c.netVal = false ∧
      (c.lo + c.hostSize ≤ M4 ∨ M4 + 2 ^ 32 ≤ c.lo))

theorem div_interval {N b x : Nat} (hN : 0 < N) (hb : b % N = 0) :
    x / N = b / N ↔ b ≤ x ∧ x < b + N := by
  have hbb : N * (b / N) = b := Nat.mul_div_cancel' (Nat.dvd_of_mod_eq_zero hb)
  constructor
  · intro h
    have h1 : x / N * N ≤ x := Nat.div_mul_le_self x N
    have h2 : x < N * (x / N) + N := by
      have hd := Nat.div_add_mod x N
      have hm : x % N < N := Nat.mod_lt _ hN
      omega
    rw [h] at h1 h2
    have h3 : b / N * N = N * (b / N) := by ring
    rw [h3] at h1
    omega
  · rintro ⟨hle, hlt⟩
    obtain ⟨d, hd, hdN⟩ : ∃ d, x = b + d ∧ d < N := ⟨x - b, by omega, by omega⟩
    subst hd
    have hsplit : (b + d) / N = b / N + d / N := by
      conv_lhs => rw [← hbb]
      rw [Nat.mul_add_div hN]
    rw [hsplit, Nat.div_eq_of_lt hdN, Nat.add_zero]

theorem contains_iff (c : GoIPNet) (hwf : c.wf) (hcl : c.clean) (ip : Nat) :
    c.contains ip = true ↔ c.lo ≤ ip ∧ ip < c.lo + c.hostSize := by
  obtain ⟨hp, hpb, hnv, hmod⟩ := hwf
  by_cases hv : c.v4 = true
  · have hbits : c.bits = 32 := by unfold GoIPNet.bits; rw [if_pos hv]
    have hhs : c.hostSize = 2 ^ (32 - c.pLen) := by
      unfold GoIPNet.hostSize
      rw [hbits]
    have hlo : c.lo = M4 + c.netVal := by unfold GoIPNet.lo; rw [if_pos hv]
    rw [hbits] at hnv hpb
    rw [hhs] at hmod
    have hN4 : 0 < 2 ^ (32 - c.pLen) := by positivity
    have hsub : c.netVal + 2 ^ (32 - c.pLen) ≤ 2 ^ 32 := masked_add_le hpb hnv hmod
    unfold GoIPNet.contains v4mapped
    rw [if_pos hv, hlo, hhs]
    constructor
    · intro h
      simp only [Bool.and_eq_true, decide_eq_true_eq, beq_iff_eq] at h
      obtain ⟨⟨h1, h2⟩, h3⟩ := h
      have h4 := (div_interval hN4 hmod).mp h3
      omega
    · intro h
      simp only [Bool.and_eq_true, decide_eq_true_eq, beq_iff_eq]
      refine ⟨⟨by omega, by omega⟩, (div_interval hN4 hmod).mpr ⟨by omega, by omega⟩⟩
  · rcases hcl with hcl4 | ⟨hnm, hdisj⟩
    · exact absurd hcl4 hv
    · have hbits : c.bits = 128 := by unfold GoIPNet.bits; rw [if_neg hv]
      have hhs : c.hostSize = 2 ^ (128 - c.pLen) := by
        unfold GoIPNet.hostSize
        rw [hbits]
      have hlo : c.lo = c.netVal := by unfold GoIPNet.lo; rw [if_neg hv]
      rw [hhs] at hmod
      rw [hlo, hhs] at hdisj
      have hN6 : 0 < 2 ^ (128 - c.pLen) := by positivity
      unfold GoIPNet.contains
      rw [if_neg hv, hnm]
      simp only [Bool.false_eq_true, if_false]
      rw [hlo, hhs]
      constructor
      · intro h
        simp only [Bool.and_eq_true, beq_iff_eq] at h
        exact (div_interval hN6 hmod).mp h.2
      · intro h
        simp only [Bool.and_eq_true, beq_iff_eq]
        refine ⟨?_, (div_interval hN6 hmod).mpr h⟩
        have hm : v4mapped ip = false := by
          rcases hdisj with hd | hd
          · exact v4mapped_false_of_lt (by omega)
          · exact v4mapped_false_of_ge (by omega)
        rw [hm]
        rfl

theorem block_bounds (c : GoIPNet) (hwf : c.wf) :
    0 < c.hostSize ∧ c.lo + c.hostSize ≤ 2 ^ 128 ∧
      (c.lo = 0 → c.hostSize ≤ 2 ^ 127) := by
  obtain ⟨hp, hpb, hnv, hmod⟩ := hwf
  refine ⟨by unfold GoIPNet.hostSize; positivity, ?_, ?_⟩
  · by_cases hv : c.v4 = true
    · have hbits : c.bits = 32 := by unfold GoIPNet.bits; rw [if_pos hv]
      have hhs : c.hostSize = 2 ^ (32 - c.pLen) := by
        unfold GoIPNet.hostSize
        rw [hbits]
      have hlo : c.lo = M4 + c.netVal := by unfold GoIPNet.lo; rw [if_pos hv]
      rw [hbits] at hnv hpb
      rw [hhs] at hmod
      have hsub : c.netVal + 2 ^ (32 - c.pLen) ≤ 2 ^ 32 := masked_add_le hpb hnv hmod
      have hM : M4 + 2 ^ 32 ≤ 2 ^ 128 := by
        rw [pow128]
        norm_num [M4]
      rw [hlo, hhs]
      omega
    · have hbits : c.bits = 128 := by unfold GoIPNet.bits; rw [if_neg hv]
      have hhs : c.hostSize = 2 ^ (128 - c.pLen) := by
        unfold GoIPNet.hostSize
        rw [hbits]
      have hlo : c.lo = c.netVal := by unfold GoIPNet.lo; rw [if_neg hv]
      rw [hbits] at hnv hpb
      rw [hhs] at hmod
      rw [hlo, hhs]
      exact masked_add_le hpb hnv hmod
  · intro hlo0
    by_cases hv : c.v4 = true
    · exfalso
      have hlo : c.lo = M4 + c.netVal := by unfold GoIPNet.lo; rw [if_pos hv]
      rw [hlo] at hlo0
      have hM : 0 < M4 := by norm_num [M4]
      omega
    · have hbits : c.bits = 128 := by unfold GoIPNet.bits; rw [if_neg hv]
      have hhs : c.hostSize = 2 ^ (128 - c.pLen) := by
        unfold GoIPNet.hostSize
        rw [hbits]
      rw [hhs]
      exact Nat.pow_le_pow_right (by norm_num) (by omega)

theorem addrDec128_of_pos {ip : Nat} (h1 : 1 ≤ ip) (h2 : ip < 2 ^ 128) :
    addrDec128 ip = ip - 1 := by
  simp only [addrDec128]
  rw [pow128] at h2 ⊢
  omega

theorem addrDec128_zero : addrDec128 0 = 2 ^ 128 - 1 := by
  simp only [addrDec128]
  rw [pow128]

theorem addrInc128_of_lt {ip : Nat} (h : ip + 1 < 2 ^ 128) :
    addrInc128 ip = ip + 1 := by
  simp only [addrInc128]
  exact Nat.mod_eq_of_lt h

theorem addrInc128_top : addrInc128 (2 ^ 128 - 1) = 0 := by
  simp only [addrInc128]
  rw [pow128]

/-- The backward walk of `CIDRSubset`: up to `k` times, `addrDec` the
address; as soon as the block no longer contains it, `addrInc` back and
stop. -/
def walkBack (c : GoIPNet) : Nat → Nat → Nat
  | 0, ip => ip
  | k + 1, ip =>
    if c.contains (addrDec128 ip) then walkBack c k (addrDec128 ip)
    else addrInc128 (addrDec128 ip)

/-- The forward walk of `CIDRSubset`: up to `k` times, `addrInc` the
address; as soon as the block no longer contains it, `addrDec` back and
stop. -/
def walkFwd (c : GoIPNet) : Nat → Nat → Nat
  | 0, ip => ip
  | k + 1, ip =>
    if c.contains (addrInc128 ip) then walkFwd c k (addrInc128 ip)
    else addrDec128 (addrInc128 ip)

theorem walkBack_run (c : GoIPNet) (hwf : c.wf) (hcl : c.clean) :
    ∀ k ip, c.lo ≤ ip → ip ≤ c.hi → walkBack c k ip = max c.lo (ip - k) := by
  obtain ⟨hhs0, hbound, hcorner⟩ := block_bounds c hwf
  have hhi2 : c.hi = c.lo + c.hostSize - 1 := rfl
  intro k
  induction k with
  | zero =>
    intro ip h1 h2
    simp only [walkBack, Nat.sub_zero]
    omega
  | succ k ih =>
    intro ip h1 h2
    have hip : ip < 2 ^ 128 := by omega
    rcases Nat.lt_or_ge c.lo ip with hlt | hge
    · have hdec : addrDec128 ip = ip - 1 := addrDec128_of_pos (by omega) hip
      have hcont : c.contains (ip - 1) = true :=
        (contains_iff c hwf hcl _).mpr ⟨by omega, by omega⟩
      simp only [walkBack, hdec, hcont, if_true]
      rw [ih (ip - 1) (by omega) (by omega)]
      omega
    · have heq : ip = c.lo := by omega
      subst heq
      rcases Nat.eq_zero_or_pos c.lo with hz | hpos
      · have hdec : addrDec128 c.lo = 2 ^ 128 - 1 := by
          rw [hz]
          exact addrDec128_zero
        have hcont : c.contains (2 ^ 128 - 1) = false := by
          rcases Bool.eq_false_or_eq_true (c.contains (2 ^ 128 - 1)) with ht | hf
          · exfalso
            have hint := (contains_iff c hwf hcl _).mp ht
            have hc := hcorner hz
            have h127 := pow127
            have h128 := pow128
            omega
          · exact hf
        simp only [walkBack, hdec, hcont, Bool.false_eq_true, if_false]
        rw [addrInc128_top]
        omega
      · have hdec : addrDec128 c.lo = c.lo - 1 := addrDec128_of_pos hpos (by omega)
        have hcont : c.contains (c.lo - 1) = false := by
          rcases Bool.eq_false_or_eq_true (c.contains (c.lo - 1)) with ht | hf
          · exfalso
            have hint := (contains_iff c hwf hcl _).mp ht
            omega
          · exact hf
        simp only [walkBack, hdec, hcont, Bool.false_eq_true, if_false]
        rw [addrInc128_of_lt (by omega)]
        omega

theorem walkFwd_run (c : GoIPNet) (hwf : c.wf) (hcl : c.clean) :
    ∀ k ip, c.lo ≤ ip → ip ≤ c.hi → walkFwd c k ip = min c.hi (ip + k) := by
  obtain ⟨hhs0, hbound, hcorner⟩ := block_bounds c hwf
  have hhi2 : c.hi = c.lo + c.hostSize - 1 := rfl
  intro k
  induction k with
  | zero =>
    intro ip h1 h2
    simp only [walkFwd, Nat.add_zero]
    omega
  | succ k ih =>
    intro ip h1 h2
    rcases Nat.lt_or_ge ip c.hi with hlt | hge
    · have hinc : addrInc128 ip = ip + 1 := addrInc128_of_lt (by omega)
      have hcont : c.contains (ip + 1) = true :=
        (contains_iff c hwf hcl _).mpr ⟨by omega, by omega⟩
      simp only [walkFwd, hinc, hcont, if_true]
      rw [ih (ip + 1) (by omega) (by omega)]
      omega
    · have heq : ip = c.hi := by omega
      subst heq
      rcases Nat.lt_or_ge (c.hi + 1) (2 ^ 128) with hlt2 | hge2
      · have hinc : addrInc128 c.hi = c.hi + 1 := addrInc128_of_lt hlt2
        have hcont : c.contains (c.hi + 1) = false := by
          rcases Bool.eq_false_or_eq_true (c.contains (c.hi + 1)) with ht | hf
          · exfalso
            have hint := (contains_iff c hwf hcl _).mp ht
            omega
          · exact hf
        simp only [walkFwd, hinc, hcont, Bool.false_eq_true, if_false]
        rw [addrDec128_of_pos (by omega) hlt2]
        omega
      · have hhieq : c.hi = 2 ^ 128 - 1 := by omega
        have hlopos : 0 < c.lo := by
          rcases Nat.eq_zero_or_pos c.lo with hz | hp2
          · exfalso
            have hc := hcorner hz
            have h127 := pow127
            have h128 := pow128
            omega
          · exact hp2
        have hinc : addrInc128 c.hi = 0 := by
          rw [hhieq]
          exact addrInc128_top
        have hcont : c.contains 0 = false := by
          rcases Bool.eq_false_or_eq_true (c.contains 0) with ht | hf
          · exfalso
            have hint := (contains_iff c hwf hcl _).mp ht
            omega
          · exact hf
        simp only [walkFwd, hinc, hcont, Bool.false_eq_true, if_false]
        rw [addrDec128_zero, ← hhieq]
        omega

/-- `CIDRSubset` from network.go: a center outside the block is returned
alone; otherwise walk `num/2` steps backward and forward from the
center, clamping at the block boundary, and return the single bound when
the two walks meet, else the inclusive `RangeHosts` range between
them. -/
def cidrSubset (c : GoIPNet) (ctr : Nat) (num : Nat) : List Nat :=
  if !(c.contains ctr) then [ctr]
  else
    let offset := num / 2
    let first := walkBack c offset ctr
    let last := walkFwd c offset ctr
    if first == last then [first]
    else rangeHosts (some (GoIP.ip16 first)) (some (GoIP.ip16 last))

/-- The 10.0.0.0/24 block used as the concrete instance for the
CIDRSubset claim. -/
def c7ex : GoIPNet := ⟨true, 24, 167772160⟩

/-- The v4-mapped value of 10.0.0.10, a center inside `c7ex`. -/
def ctr7 : Nat := M4 + 167772170

/-- Claim C7 counterexample: `CIDRSubset(10.0.0.0/24, 10.0.0.10, 4)`
returns five addresses (10.0.0.8 through 10.0.0.12), not "up to 4": the
walk of `count/2` steps each way yields up to `2*(count/2) + 1`
addresses, exceeding an even `count` by one. -/
theorem cidrSubset_exceeds_count :
    (cidrSubset c7ex ctr7 4).length = 5 ∧
      ¬((cidrSubset c7ex ctr7 4).length ≤ 4) := by
  refine ⟨by decide, by decide⟩

/-- Claim C7 (amended): for a well-formed clean block — every 4-byte
block, and every plain 16-byte block whose range avoids the v4-mapped
window, so that the addresses `Contains` accepts form one interval — a
center that `Contains` rejects (outside the block, or failing the
byte-length check after `To4`) is returned alone; a center inside the
block yields the inclusive range between `max lo (center - count/2)`
and `min hi (center + count/2)` — the walks of `count/2` steps backward
and forward clamped at the block boundary — whose length is at most
`2*(count/2) + 1` (which exceeds `count` by one when `count` is even),
a single address when the bounds coincide. -/
theorem cidrSubset_amended (c : GoIPNet) (ctr num : Nat) (hwf : c.wf)
    (hcl : c.clean) :
    (c.contains ctr = false → cidrSubset c ctr num = [ctr]) ∧
    (c.contains ctr = true →
      cidrSubset c ctr num =
        (List.range
            (min c.hi (ctr + num / 2) - max c.lo (ctr - num / 2) + 1)).map
          (fun i => max c.lo (ctr - num / 2) + i) ∧
      (cidrSubset c ctr num).length ≤ 2 * (num / 2) + 1) := by
  obtain ⟨hhs0, hbound, hcorner⟩ := block_bounds c hwf
  have hhi2 : c.hi = c.lo + c.hostSize - 1 := rfl
  constructor
  · intro h
    unfold cidrSubset
    rw [h]
    rfl
  · intro h
    have hctr := (contains_iff c hwf hcl ctr).mp h
    have hctrlo : c.lo ≤ ctr := hctr.1
    have hctrhi : ctr ≤ c.hi := by omega
    set off := num / 2 with hoff
    have hF := walkBack_run c hwf hcl off ctr hctrlo hctrhi
    have hL := walkFwd_run c hwf hcl off ctr hctrlo hctrhi
    set F := max c.lo (ctr - off) with hFdef
    set L := min c.hi (ctr + off) with hLdef
    have hFle : c.lo ≤ F := le_max_left _ _
    have hFc : F ≤ ctr := max_le hctrlo (Nat.sub_le _ _)
    have hcL : ctr ≤ L := le_min hctrhi (Nat.le_add_right _ _)
    have hLhi : L ≤ c.hi := min_le_left _ _
    have hL2 : L ≤ ctr + off := min_le_right _ _
    have hF2 : ctr - off ≤ F := le_max_right _ _
    have hmain : cidrSubset c ctr num =
        (if F == L then [F]
          else rangeHosts (some (GoIP.ip16 F)) (some (GoIP.ip16 L))) := by
      unfold cidrSubset
      rw [h]
      simp only [Bool.not_true, Bool.false_eq_true, if_false]
      rw [← hoff, hF, hL]
    by_cases hFL : F = L
    · have hbeq : (F == L) = true := by
        rw [hFL]
        exact beq_self_eq_true L
      rw [hmain, hbeq]
      simp only [if_true]
      constructor
      · rw [show L - F + 1 = 0 + 1 from by omega, List.range_succ_eq_map]
        simp [hFL]
      · simp
    · have hFLlt : F < L := by omega
      have hbeq : (F == L) = false := by
        simp [hFL]
      rw [hmain, hbeq]
      simp only [Bool.false_eq_true, if_false]
      have hL128 : L < 2 ^ 128 := by omega
      have hcorn : L = 2 ^ 128 - 1 → 0 < F := by
        intro hLeq
        have hhieq : c.hi = 2 ^ 128 - 1 := by omega
        have hlopos : 0 < c.lo := by
          rcases Nat.eq_zero_or_pos c.lo with hz | hp2
          · exfalso
            have hc := hcorner hz
            have h127 := pow127
            have h128 := pow128
            omega
          · exact hp2
        omega
      have hrH : rangeHosts (some (GoIP.ip16 F)) (some (GoIP.ip16 L)) =
          (if L ≤ F then ([] : List Nat)
            else rangeLoop (2 ^ 128) F (addrInc128 L)) := rfl
      rw [hrH, rangeHosts_core F L hFLlt hL128 hcorn]
      refine ⟨rfl, ?_⟩
      rw [List.length_map, List.length_range]
      omega

/-- Claim C7 witness (amended claim at a concrete block):
`CIDRSubset(10.0.0.0/24, 10.0.0.10, 5)` is the five addresses 10.0.0.8
through 10.0.0.12. -/
theorem cidrSubset_amended_witness :
    cidrSubset c7ex ctr7 5 =
      [M4 + 167772168, M4 + 167772169, M4 + 167772170,
        M4 + 167772171, M4 + 167772172] := by
  have h := ((cidrSubset_amended c7ex ctr7 5
    ⟨by decide, by decide, by decide, by decide⟩ (Or.inl rfl)).2 (by decide)).1
  rw [h]
  decide

/-! ## NetFirstLast (network.go) -/

/-- A block as `NetFirstLast` sees it: the byte family of the IP and the
canonical mask, the IP value in native width, and the mask ones-count. -/
structure NFLNet where
  v4 : Bool
  ipVal : Nat
  pLen : Nat

/-- Bit count returned by `cidr.Mask.Size()` for a canonical mask of the
block's byte length. -/
def NFLNet.maskBits (c : NFLNet) : Nat := if c.v4 then 32 else 128

/-- Bit width chosen by `ipToInt` through the `IsIPv4`/`IsIPv6`
colon-count heuristic on `ip.String()`: a 4-byte address prints in
dotted form (no colons), and a 16-byte address prints in dotted form
exactly when it is v4-mapped, otherwise with at least two colons. -/
def NFLNet.heurBits (c : NFLNet) : Nat :=
  if c.v4 then 32
  else if v4mapped c.ipVal then 32 else 128

/-- `intToIP`: pack the big-int bytes into a `bits/8`-byte array from the
end; when the value needs more bytes than the array holds, the target
index underflows and the Go code panics (`none`). -/
def intToIP (v bits : Nat) : Option Nat :=
  if v < 2 ^ bits then some v else none

/-- `NetFirstLast` from network.go: a full mask returns the first address
twice (as a copy); otherwise the host length is the uint-wrapping
difference of the heuristic bit width and the mask ones-count, and the
last address is the big-int `(1 <<< hostLen) - 1` OR'ed with the first
address, packed back into `bits/8` bytes. -/
def netFirstLast (c : NFLNet) : Option (Nat × Nat) :=
  if c.pLen == c.maskBits then some (c.ipVal, c.ipVal)
  else
    (intToIP
      (Nat.lor (2 ^ ((c.heurBits + (2 ^ 64 - c.pLen)) % 2 ^ 64) - 1) c.ipVal)
      c.heurBits).map (fun last => (c.ipVal, last))

theorem netFirstLast_not_full (c : NFLNet)
    (hne : (c.pLen == c.maskBits) = false) :
    netFirstLast c =
      (intToIP
        (Nat.lor (2 ^ ((c.heurBits + (2 ^ 64 - c.pLen)) % 2 ^ 64) - 1) c.ipVal)
        c.heurBits).map (fun last => (c.ipVal, last)) := by
  unfold netFirstLast
  rw [hne]
  simp only [Bool.false_eq_true, if_false]

theorem lor_mask_not_lt (e v : Nat) (he : 33 < e) :
    ¬ Nat.lor (2 ^ e - 1) v < 2 ^ 32 := by
  intro hlt
  have h33 : Nat.testBit (Nat.lor (2 ^ e - 1) v) 33 = false :=
    Nat.testBit_lt_two_pow (lt_of_lt_of_le hlt (by norm_num))
  have hsplit : Nat.testBit (Nat.lor (2 ^ e - 1) v) 33 =
      (Nat.testBit (2 ^ e - 1) 33 || Nat.testBit v 33) := Nat.testBit_lor _ _ _
  rw [hsplit, Nat.testBit_two_pow_sub_one] at h33
  rw [decide_eq_true he] at h33
  simp at h33

theorem netFirstLast_mapped (ip p : Nat) (hm : v4mapped ip = true)
    (hne : (p == 128) = false)
    (hp : 33 < (32 + (2 ^ 64 - p)) % 2 ^ 64) :
    netFirstLast ⟨false, ip, p⟩ = none := by
  have hbig := lor_mask_not_lt ((32 + (2 ^ 64 - p)) % 2 ^ 64) ip hp
  have hheu : NFLNet.heurBits ⟨false, ip, p⟩ = 32 := by
    show (if (false : Bool) then 32 else if v4mapped ip then 32 else 128) = 32
    rw [if_neg (by simp), if_pos hm]
  rw [netFirstLast_not_full ⟨false, ip, p⟩ hne, hheu]
  show (intToIP
      (Nat.lor (2 ^ ((32 + (2 ^ 64 - p)) % 2 ^ 64) - 1) ip)
      32).map (fun last => (ip, last)) = none
  unfold intToIP
  rw [if_neg hbig]
  rfl

/-- Claim C8 counterexample: on the v4-mapped 16-byte block
`::ffff:10.0.0.0/120` (produced by `ParseCIDR` of that string) the mask
ones-count is 120 but the address prints in dotted form, so the
colon-count heuristic of `ipToInt` chooses the 32-bit width; the Go
host length `uint(32) - uint(120)` wraps around to `2 ^ 64 - 88`, the
OR mask `(1 <<< hostLen) - 1` has bits far above bit 31 set, and
`intToIP` cannot pack the result into 4 bytes: its byte index
underflows and the program panics (modelled as `none`), instead of
returning the claim's OR formula. -/
theorem netFirstLast_mapped_v6_panics :
    netFirstLast ⟨false, M4 + 167772160, 120⟩ = none ∧
    netFirstLast ⟨false, M4 + 167772160, 120⟩ ≠
      some (M4 + 167772160,
        Nat.lor (M4 + 167772160) (2 ^ (128 - 120) - 1)) := by
  have hnone : netFirstLast ⟨false, M4 + 167772160, 120⟩ = none :=
    netFirstLast_mapped (M4 + 167772160) 120 (by decide) (by decide)
      (by norm_num)
  refine ⟨hnone, ?_⟩
  rw [hnone]
  exact fun h => Option.noConfusion h

/-- Claim C8 (amended): `NetFirstLast` returns first = last exactly on a
full mask (/32 or /128 host route); otherwise the OR formula
`last = first OR (2 ^ hostBits - 1)` holds exactly when the colon-count
heuristic width agrees with the mask width — every 4-byte block and
every plain 16-byte block — computed with exact natural-number
arithmetic at that width; a v4-mapped 16-byte block makes the widths
disagree, the uint host length wraps around, and the program panics. -/
theorem netFirstLast_spec (c : NFLNet) (hip : c.ipVal < 2 ^ c.maskBits)
    (hheur : c.heurBits = c.maskBits) :
    (c.pLen = c.maskBits → netFirstLast c = some (c.ipVal, c.ipVal)) ∧
    (c.pLen < c.maskBits →
      netFirstLast c =
        some (c.ipVal, Nat.lor c.ipVal (2 ^ (c.maskBits - c.pLen) - 1))) := by
  constructor
  · intro h
    unfold netFirstLast
    rw [if_pos (by simp [h])]
  · intro h
    have hb128 : c.maskBits ≤ 128 := by
      unfold NFLNet.maskBits
      split <;> norm_num
    unfold netFirstLast
    rw [if_neg (by simp only [beq_iff_eq]; omega), hheur]
    have hhost : (c.maskBits + (2 ^ 64 - c.pLen)) % 2 ^ 64 = c.maskBits - c.pLen := by
      have h64 : (2 : Nat) ^ 64 = 18446744073709551616 := by norm_num
      rw [h64]
      omega
    rw [hhost]
    have hmask : 2 ^ (c.maskBits - c.pLen) - 1 < 2 ^ c.maskBits := by
      have hle : (2 : Nat) ^ (c.maskBits - c.pLen) ≤ 2 ^ c.maskBits :=
        Nat.pow_le_pow_right (by norm_num) (by omega)
      have hpos : 0 < (2 : Nat) ^ (c.maskBits - c.pLen) := by positivity
      omega
    have hlt : Nat.lor (2 ^ (c.maskBits - c.pLen) - 1) c.ipVal < 2 ^ c.maskBits :=
      Nat.bitwise_lt hmask hip
    unfold intToIP
    rw [if_pos hlt]
    have hc : Nat.lor (2 ^ (c.maskBits - c.pLen) - 1) c.ipVal =
        Nat.lor c.ipVal (2 ^ (c.maskBits - c.pLen) - 1) := Nat.lor_comm _ _
    show some (c.ipVal, Nat.lor (2 ^ (c.maskBits - c.pLen) - 1) c.ipVal) = _
    rw [hc]

/-- Claim C8 witness: on 10.0.0.0/8 the pair is (10.0.0.0,
10.255.255.255). -/
theorem netFirstLast_spec_witness :
    netFirstLast ⟨true, 167772160, 8⟩ = some (167772160, 184549375) := by
  have h := (netFirstLast_spec ⟨true, 167772160, 8⟩ (by decide)
    (by decide)).2 (by decide)
  rw [h]
  decide

end AmassSpec
